import Mathlib

/-!
Verification of the gomoku game core (`src/main.rs`).

The embedding mirrors the Rust source:
* `CellState`, `ChessColor`, `Chess`, `GameState`, `Message` are the Rust enums/structs.
* `Board` keeps the geometry fields as exact rationals (the Rust source uses `f32`;
  every pixel quantity handled by the claims is exactly representable, and the
  hit-test comparison `dis * 2.0 > cell_size * dis_scale`, where
  `dis = sqrt (dx^2 + dy^2)`, is embedded by comparing squares:
  `(cell_size * dis_scale)^2 < 4 * (dx^2 + dy^2)`, which is equivalent for a
  nonnegative tolerance threshold).
* The Rust `panic!` branches of `put_chess` / `remove_last_chess` are modelled by
  `Option`: `none` is the panic.
* Rendering caches (`chesses_cache`, `grid_cache`, `overlay_cache`) hold no
  observable game state and are omitted.
-/

set_option maxRecDepth 16384

namespace Gomoku

/-- Rust `enum CellState { Empty, Black, White }`. -/
inductive CellState where
  | Empty
  | Black
  | White
deriving DecidableEq, Repr

/-- Rust `enum ChessColor { Black, White }`. -/
inductive ChessColor where
  | Black
  | White
deriving DecidableEq, Repr

/-- Rust `struct Chess { pos: Point<usize>, color: ChessColor }`.
`pos` is the (col, row) grid position. -/
structure Chess where
  pos : ℕ × ℕ
  color : ChessColor
deriving DecidableEq, Repr

/-- Rust `enum GameState { WaitBlack, WaitWhite, CheckBlack, CheckWhite }`. -/
inductive GameState where
  | WaitBlack
  | WaitWhite
  | CheckBlack
  | CheckWhite
deriving DecidableEq, Repr

/-- Rust `enum Message { ClickBoard(usize) }`. -/
inductive Message where
  | ClickBoard (index : ℕ)
deriving DecidableEq, Repr

/-- Rust `struct Board` (game-state fields only; the three render caches are
omitted, see the file header). -/
structure Board where
  padding : ℚ
  cell_size : ℚ
  chess_size : ℚ
  line_width : ℚ
  grid_size : ℚ
  cells_per_row : ℕ
  cells : List CellState
  chesses : List Chess
deriving DecidableEq, Repr

namespace Board

/-- Rust `Board::new`. -/
def new (padding cell_size chess_size line_width : ℚ) : Board :=
  let cells_per_row : ℕ := 15
  let grid_size : ℚ := ((cells_per_row : ℚ) - 1) * cell_size + line_width
  { padding := padding
    cell_size := cell_size
    chess_size := chess_size
    line_width := line_width
    grid_size := grid_size
    cells_per_row := cells_per_row
    cells := List.replicate (cells_per_row * cells_per_row) CellState.Empty
    chesses := [] }

/-- Rust `impl Default for Board`. -/
def default : Board := new 45 48 42 2

/-- Rust `Board::valid_index`. -/
def valid_index (b : Board) (index : ℕ) : Bool :=
  decide (index < b.cells_per_row * b.cells_per_row)

/-- Rust `Board::valid_pos`. -/
def valid_pos (b : Board) (col row : ℕ) : Bool :=
  decide (col ≤ b.cells_per_row) && decide (row ≤ b.cells_per_row)

/-- Rust `Board::index_to_pos`. -/
def index_to_pos (b : Board) (index : ℕ) : ℕ × ℕ :=
  (index % b.cells_per_row, index / b.cells_per_row)

/-- Rust `Board::pos_to_index`. -/
def pos_to_index (b : Board) (pos : ℕ × ℕ) : ℕ :=
  pos.1 + pos.2 * b.cells_per_row

/-- Rust `Board::is_empty_at`. `Vec` indexing is rendered with `List.getD`;
the `valid_index` short-circuit guard keeps the access in range whenever
`cells` has its constructed length. -/
def is_empty_at (b : Board) (index : ℕ) : Bool :=
  b.valid_index index && decide (b.cells.getD index CellState.Empty = CellState.Empty)

/-- Rust `Board::put_chess`. `none` is the `panic!` branch. -/
def put_chess (b : Board) (index : ℕ) (is_black : Bool) : Option Board :=
  if b.valid_index index then
    let grid_pos := b.index_to_pos index
    some { b with
      chesses := b.chesses ++
        [{ pos := grid_pos
           color := if is_black then ChessColor.Black else ChessColor.White }]
      cells := b.cells.set index
        (if is_black then CellState.Black else CellState.White) }
  else
    none

/-- Rust `Board::remove_last_chess`. `Vec::pop` yields the last element;
`none` is the `panic!` branch taken when the history is empty. -/
def remove_last_chess (b : Board) : Option Board :=
  match b.chesses.getLast? with
  | some chess =>
      some { b with
        chesses := b.chesses.dropLast
        cells := b.cells.set (b.pos_to_index chess.pos) CellState.Empty }
  | none => none

/-- Rust `Board::clear`. -/
def clear (b : Board) : Board :=
  new b.padding b.cell_size b.chess_size b.line_width

/-- Rust `f32::round`: round to nearest, ties away from zero. -/
def roundQ (q : ℚ) : ℤ :=
  if 0 ≤ q then ⌊q + 1 / 2⌋ else ⌈q - 1 / 2⌉

/-- Rust `Board::grid_pos`. The candidate `(col, row)` is rounded as an `i32`
and cast to `usize` only under the `col > 0 && row > 0` guard, so `Int.toNat`
is exact there. The distance test `dis * 2.0 > cell_size * dis_scale` with
`dis = sqrt (dx^2 + dy^2)` is embedded squared (see the file header). -/
def grid_pos (b : Board) (x y dis_scale : ℚ) : Option (ℕ × ℕ) :=
  let px := x - b.padding
  let py := y - b.padding
  let col : ℤ := roundQ (px / b.cell_size)
  let row : ℤ := roundQ (py / b.cell_size)
  if 0 < col ∧ 0 < row ∧ b.valid_pos col.toNat row.toNat then
    let dx := px - (col : ℚ) * b.cell_size
    let dy := py - (row : ℚ) * b.cell_size
    if (b.cell_size * dis_scale) ^ 2 < 4 * (dx ^ 2 + dy ^ 2) then none
    else some (col.toNat, row.toNat)
  else
    none

end Board

/-- Rust `struct GomokuGame`. -/
structure GomokuGame where
  board : Board
  state : GameState
deriving DecidableEq, Repr

namespace GomokuGame

/-- Rust `GomokuGame::new` (`Sandbox::new`). -/
def new : GomokuGame :=
  { board := Board.default, state := GameState.WaitBlack }

/-- Rust `GomokuGame::update` (`Sandbox::update`). The `next_state` local of
the source is the second component of `step`; `none` propagates a `put_chess`
panic (shown unreachable in `update_total`). -/
def update (g : GomokuGame) (message : Message) : Option GomokuGame :=
  match message with
  | Message.ClickBoard index =>
    let step : Option (Board × Option GameState) :=
      if g.board.is_empty_at index then
        match g.state with
        | GameState.WaitBlack =>
            (g.board.put_chess index true).map (fun b => (b, some GameState.CheckBlack))
        | GameState.WaitWhite =>
            (g.board.put_chess index false).map (fun b => (b, some GameState.CheckWhite))
        | _ => some (g.board, none)
      else some (g.board, none)
    step.map fun p =>
      { board := p.1
        state :=
          match p.2 with
          | some GameState.CheckBlack => GameState.WaitWhite
          | some GameState.CheckWhite => GameState.WaitBlack
          | _ => g.state }

end GomokuGame

/-- The operations reachable from outside the core: a click dispatched through
`update`, an undo (`Board::remove_last_chess`), and a reset (`Board::clear`).
The latter two act on the `board` field only, exactly as calling the Rust
method on `self.board` would. -/
inductive Op where
  | click (index : ℕ)
  | removeLast
  | clearBoard
deriving DecidableEq, Repr

/-- Apply one operation; `none` is a panic (empty-history undo, or an
unreachable `put_chess` fault). -/
def applyOp (g : GomokuGame) (op : Op) : Option GomokuGame :=
  match op with
  | Op.click index => g.update (Message.ClickBoard index)
  | Op.removeLast => (g.board.remove_last_chess).map (fun b => { g with board := b })
  | Op.clearBoard => some { g with board := g.board.clear }

/-- Run a sequence of operations, stopping at the first panic. -/
def execOps (g : GomokuGame) : List Op → Option GomokuGame
  | [] => some g
  | op :: rest =>
    match applyOp g op with
    | some g' => execOps g' rest
    | none => none

/-- Number of non-`Empty` cells. -/
def countNonEmpty (cells : List CellState) : ℕ :=
  cells.countP (fun c => decide (c ≠ CellState.Empty))

/-- The board invariant: invariant I1/I2 of the spec, in the form needed to
push the occupancy count through every reachable operation. The cell vector
keeps its constructed length, recorded moves sit at pairwise-distinct in-range
indices, every recorded move's cell is occupied, and the number of occupied
cells equals the history length. -/
def Inv (b : Board) : Prop :=
  b.cells.length = b.cells_per_row * b.cells_per_row ∧
  (b.chesses.map (fun m => b.pos_to_index m.pos)).Nodup ∧
  (∀ m ∈ b.chesses, b.pos_to_index m.pos < b.cells.length ∧
    b.cells.getD (b.pos_to_index m.pos) CellState.Empty ≠ CellState.Empty) ∧
  countNonEmpty b.cells = b.chesses.length

/-- A sample mid-game position: one black chess at index 16 = cell (1, 1),
White to move. -/
def sampleGame : GomokuGame :=
  { board := { Board.default with
      cells := (List.replicate 225 CellState.Empty).set 16 CellState.Black
      chesses := [{ pos := (1, 1), color := ChessColor.Black }] }
    state := GameState.WaitWhite }

/-! ### Basic lemmas about lists and the board operations -/

theorem getD_set_self {α : Type} (l : List α) (i : ℕ) (a d : α) (h : i < l.length) :
    (l.set i a).getD i d = a := by
  simp [List.getD_eq_getElem?_getD, List.getElem?_set_self h]

theorem getD_set_ne {α : Type} (l : List α) (i j : ℕ) (a d : α) (h : i ≠ j) :
    (l.set i a).getD j d = l.getD j d := by
  simp [List.getD_eq_getElem?_getD, List.getElem?_set_ne h]

theorem getD_replicate {α : Type} (n i : ℕ) (a d : α) (h : i < n) :
    (List.replicate n a).getD i d = a := by
  simp [List.getD_eq_getElem?_getD, List.getElem?_replicate, h]

theorem countNonEmpty_replicate (n : ℕ) :
    countNonEmpty (List.replicate n CellState.Empty) = 0 := by
  simp [countNonEmpty, List.countP_replicate]

theorem countNonEmpty_set_of_empty (l : List CellState) (i : ℕ) (c : CellState)
    (h : i < l.length) (he : l.getD i CellState.Empty = CellState.Empty)
    (hc : c ≠ CellState.Empty) :
    countNonEmpty (l.set i c) = countNonEmpty l + 1 := by
  induction l generalizing i with
  | nil => simp at h
  | cons x xs ih =>
    cases i with
    | zero =>
      simp only [List.getD_cons_zero] at he
      subst he
      simp [countNonEmpty, List.countP_cons, hc]
    | succ n =>
      simp only [List.getD_cons_succ] at he
      have hn : n < xs.length := by simpa using h
      simp only [List.set_cons_succ, countNonEmpty, List.countP_cons] at *
      rw [ih n hn he]
      omega

theorem countNonEmpty_set_empty_of_ne (l : List CellState) (i : ℕ)
    (h : i < l.length) (he : l.getD i CellState.Empty ≠ CellState.Empty) :
    countNonEmpty (l.set i CellState.Empty) + 1 = countNonEmpty l := by
  induction l generalizing i with
  | nil => simp at h
  | cons x xs ih =>
    cases i with
    | zero =>
      simp only [List.getD_cons_zero] at he
      simp [countNonEmpty, List.countP_cons, he]
    | succ n =>
      simp only [List.getD_cons_succ] at he
      have hn : n < xs.length := by simpa using h
      simp only [List.set_cons_succ, countNonEmpty, List.countP_cons] at *
      have := ih n hn he
      omega

theorem pos_to_index_index_to_pos (b : Board) (i : ℕ) :
    b.pos_to_index (b.index_to_pos i) = i := by
  simp [Board.pos_to_index, Board.index_to_pos, Nat.mod_add_div']

theorem valid_index_iff (b : Board) (i : ℕ) :
    b.valid_index i = true ↔ i < b.cells_per_row * b.cells_per_row := by
  simp [Board.valid_index]

theorem is_empty_at_iff (b : Board) (i : ℕ) :
    b.is_empty_at i = true ↔
      i < b.cells_per_row * b.cells_per_row ∧
      b.cells.getD i CellState.Empty = CellState.Empty := by
  simp [Board.is_empty_at, Board.valid_index]

theorem put_chess_of_valid (b : Board) (i : ℕ) (c : Bool)
    (h : i < b.cells_per_row * b.cells_per_row) :
    b.put_chess i c = some { b with
      chesses := b.chesses ++
        [{ pos := b.index_to_pos i
           color := if c then ChessColor.Black else ChessColor.White }]
      cells := b.cells.set i (if c then CellState.Black else CellState.White) } := by
  simp [Board.put_chess, Board.valid_index, h]

theorem put_chess_of_invalid (b : Board) (i : ℕ) (c : Bool)
    (h : ¬ i < b.cells_per_row * b.cells_per_row) :
    b.put_chess i c = none := by
  simp [Board.put_chess, Board.valid_index, h]

theorem remove_last_chess_concat (b : Board) (init : List Chess) (last : Chess)
    (h : b.chesses = init ++ [last]) :
    b.remove_last_chess = some { b with
      chesses := init
      cells := b.cells.set (b.pos_to_index last.pos) CellState.Empty } := by
  simp [Board.remove_last_chess, h, List.getLast?_concat, List.dropLast_concat]

theorem remove_last_chess_nil (b : Board) (h : b.chesses = []) :
    b.remove_last_chess = none := by
  simp [Board.remove_last_chess, h]

theorem update_click_of_not_empty (g : GomokuGame) (i : ℕ)
    (he : g.board.is_empty_at i = false) :
    g.update (Message.ClickBoard i) = some g := by
  simp [GomokuGame.update, he]

theorem update_click_black (g : GomokuGame) (i : ℕ)
    (hs : g.state = GameState.WaitBlack) (he : g.board.is_empty_at i = true) :
    g.update (Message.ClickBoard i) = some
      { board := { g.board with
          chesses := g.board.chesses ++
            [{ pos := g.board.index_to_pos i, color := ChessColor.Black }]
          cells := g.board.cells.set i CellState.Black }
        state := GameState.WaitWhite } := by
  have hv : i < g.board.cells_per_row * g.board.cells_per_row :=
    ((is_empty_at_iff _ _).1 he).1
  simp [GomokuGame.update, he, hs, put_chess_of_valid _ _ _ hv]

theorem update_click_white (g : GomokuGame) (i : ℕ)
    (hs : g.state = GameState.WaitWhite) (he : g.board.is_empty_at i = true) :
    g.update (Message.ClickBoard i) = some
      { board := { g.board with
          chesses := g.board.chesses ++
            [{ pos := g.board.index_to_pos i, color := ChessColor.White }]
          cells := g.board.cells.set i CellState.White }
        state := GameState.WaitBlack } := by
  have hv : i < g.board.cells_per_row * g.board.cells_per_row :=
    ((is_empty_at_iff _ _).1 he).1
  simp [GomokuGame.update, he, hs, put_chess_of_valid _ _ _ hv]

theorem update_click_check_black (g : GomokuGame) (i : ℕ)
    (hs : g.state = GameState.CheckBlack) :
    g.update (Message.ClickBoard i) = some g := by
  obtain ⟨b, s⟩ := g
  subst hs
  cases he : b.is_empty_at i <;> simp [GomokuGame.update, he]

theorem update_click_check_white (g : GomokuGame) (i : ℕ)
    (hs : g.state = GameState.CheckWhite) :
    g.update (Message.ClickBoard i) = some g := by
  obtain ⟨b, s⟩ := g
  subst hs
  cases he : b.is_empty_at i <;> simp [GomokuGame.update, he]

/-! ### The board invariant -/

theorem new_cells (p c s w : ℚ) :
    (Board.new p c s w).cells = List.replicate (15 * 15) CellState.Empty := rfl

theorem new_chesses (p c s w : ℚ) : (Board.new p c s w).chesses = [] := rfl

theorem new_cells_per_row (p c s w : ℚ) : (Board.new p c s w).cells_per_row = 15 := rfl

theorem Inv_new (p c s w : ℚ) : Inv (Board.new p c s w) := by
  refine ⟨?_, ?_, ?_, ?_⟩
  · rw [new_cells, new_cells_per_row, List.length_replicate]
  · rw [new_chesses, List.map_nil]
    exact List.nodup_nil
  · intro m hm
    rw [new_chesses] at hm
    exact absurd hm (List.not_mem_nil m)
  · rw [new_cells, new_chesses, countNonEmpty_replicate, List.length_nil]

theorem Inv_clear (b : Board) : Inv b.clear := by
  unfold Board.clear
  exact Inv_new _ _ _ _

theorem Inv_put (b : Board) (i : ℕ) (color : ChessColor) (cell : CellState)
    (hcell : cell ≠ CellState.Empty) (hInv : Inv b) (he : b.is_empty_at i = true) :
    Inv { b with
      chesses := b.chesses ++ [{ pos := b.index_to_pos i, color := color }]
      cells := b.cells.set i cell } := by
  obtain ⟨hlen, hnodup, hmem, hcount⟩ := hInv
  obtain ⟨hv, hemp⟩ := (is_empty_at_iff b i).1 he
  have hilen : i < b.cells.length := by omega
  have hip : b.pos_to_index (b.index_to_pos i) = i := pos_to_index_index_to_pos b i
  have hnotmem : i ∉ b.chesses.map (fun m => b.pos_to_index m.pos) := by
    intro hmem'
    obtain ⟨m, hm, hmi⟩ := List.mem_map.1 hmem'
    exact (hmem m hm).2 (hmi ▸ hemp)
  refine ⟨?_, ?_, ?_, ?_⟩
  · show (b.cells.set i cell).length = b.cells_per_row * b.cells_per_row
    rw [List.length_set]
    exact hlen
  · show (List.map (fun m => b.pos_to_index m.pos)
      (b.chesses ++ [{ pos := b.index_to_pos i, color := color }])).Nodup
    rw [List.map_append, List.nodup_append]
    refine ⟨hnodup, List.nodup_singleton _, ?_⟩
    show (b.chesses.map (fun m => b.pos_to_index m.pos)).Disjoint
      [b.pos_to_index (b.index_to_pos i)]
    rw [List.disjoint_singleton, hip]
    exact hnotmem
  · intro m hm
    have hm2 : m ∈ b.chesses ++ [({ pos := b.index_to_pos i, color := color } : Chess)] := hm
    rcases List.mem_append.1 hm2 with hm' | hm'
    · have hne : b.pos_to_index m.pos ≠ i := by
        intro hEq
        exact (hmem m hm').2 (hEq ▸ hemp)
      constructor
      · show b.pos_to_index m.pos < (b.cells.set i cell).length
        rw [List.length_set]
        exact (hmem m hm').1
      · show (b.cells.set i cell).getD (b.pos_to_index m.pos) CellState.Empty ≠
          CellState.Empty
        rw [getD_set_ne _ _ _ _ _ (fun h => hne h.symm)]
        exact (hmem m hm').2
    · rw [List.mem_singleton] at hm'
      subst hm'
      constructor
      · show b.pos_to_index (b.index_to_pos i) < (b.cells.set i cell).length
        rw [hip, List.length_set]
        exact hilen
      · show (b.cells.set i cell).getD (b.pos_to_index (b.index_to_pos i))
          CellState.Empty ≠ CellState.Empty
        rw [hip, getD_set_self _ _ _ _ hilen]
        exact hcell
  · show countNonEmpty (b.cells.set i cell) =
      (b.chesses ++ [({ pos := b.index_to_pos i, color := color } : Chess)]).length
    rw [List.length_append, countNonEmpty_set_of_empty _ _ _ hilen hemp hcell, hcount,
      List.length_singleton]

theorem Inv_remove (b : Board) (init : List Chess) (last : Chess)
    (hInv : Inv b) (h : b.chesses = init ++ [last]) :
    Inv { b with
      chesses := init
      cells := b.cells.set (b.pos_to_index last.pos) CellState.Empty } := by
  obtain ⟨hlen, hnodup, hmem, hcount⟩ := hInv
  have hlast : last ∈ b.chesses := by
    rw [h]; exact List.mem_append_right _ (List.mem_singleton.2 rfl)
  obtain ⟨hklen, hkocc⟩ := hmem last hlast
  rw [h, List.map_append, List.nodup_append] at hnodup
  obtain ⟨hnodup_init, _, hdisj⟩ := hnodup
  have hknot : b.pos_to_index last.pos ∉ init.map (fun m => b.pos_to_index m.pos) := by
    intro hk
    exact hdisj hk (by simp)
  refine ⟨?_, ?_, ?_, ?_⟩
  · show (b.cells.set (b.pos_to_index last.pos) CellState.Empty).length =
      b.cells_per_row * b.cells_per_row
    rw [List.length_set]
    exact hlen
  · show (init.map (fun m => b.pos_to_index m.pos)).Nodup
    exact hnodup_init
  · intro m hm
    have hm' : m ∈ b.chesses := by rw [h]; exact List.mem_append_left _ hm
    have hne : b.pos_to_index m.pos ≠ b.pos_to_index last.pos := by
      intro hEq
      exact hknot (hEq ▸ List.mem_map_of_mem _ hm)
    constructor
    · show b.pos_to_index m.pos <
        (b.cells.set (b.pos_to_index last.pos) CellState.Empty).length
      rw [List.length_set]
      exact (hmem m hm').1
    · show (b.cells.set (b.pos_to_index last.pos) CellState.Empty).getD
        (b.pos_to_index m.pos) CellState.Empty ≠ CellState.Empty
      rw [getD_set_ne _ _ _ _ _ (fun hEq => hne hEq.symm)]
      exact (hmem m hm').2
  · show countNonEmpty (b.cells.set (b.pos_to_index last.pos) CellState.Empty) =
      init.length
    have hstep :=
      countNonEmpty_set_empty_of_ne b.cells (b.pos_to_index last.pos) hklen hkocc
    have hlen' : b.chesses.length = init.length + 1 := by
      rw [h, List.length_append, List.length_singleton]
    omega

theorem Inv_update (g : GomokuGame) (m : Message) (g' : GomokuGame)
    (hInv : Inv g.board) (h : g.update m = some g') : Inv g'.board := by
  obtain ⟨i⟩ := m
  cases he : g.board.is_empty_at i with
  | false =>
    rw [update_click_of_not_empty g i he] at h
    cases h
    exact hInv
  | true =>
    cases hs : g.state with
    | WaitBlack =>
      rw [update_click_black g i hs he] at h
      cases h
      exact Inv_put g.board i ChessColor.Black CellState.Black (by simp) hInv he
    | WaitWhite =>
      rw [update_click_white g i hs he] at h
      cases h
      exact Inv_put g.board i ChessColor.White CellState.White (by simp) hInv he
    | CheckBlack =>
      rw [update_click_check_black g i hs] at h
      cases h
      exact hInv
    | CheckWhite =>
      rw [update_click_check_white g i hs] at h
      cases h
      exact hInv

theorem Inv_applyOp (g : GomokuGame) (op : Op) (g' : GomokuGame)
    (hInv : Inv g.board) (h : applyOp g op = some g') : Inv g'.board := by
  cases op with
  | click i => exact Inv_update g (Message.ClickBoard i) g' hInv h
  | removeLast =>
    rcases List.eq_nil_or_concat g.board.chesses with hnil | ⟨init, last, hcat⟩
    · rw [applyOp, remove_last_chess_nil g.board hnil] at h
      cases h
    · rw [List.concat_eq_append] at hcat
      rw [applyOp, remove_last_chess_concat g.board init last hcat] at h
      cases h
      exact Inv_remove g.board init last hInv hcat
  | clearBoard =>
    cases h
    exact Inv_clear g.board

theorem Inv_execOps (ops : List Op) : ∀ g g' : GomokuGame,
    Inv g.board → execOps g ops = some g' → Inv g'.board := by
  induction ops with
  | nil =>
    intro g g' hInv h
    cases h
    exact hInv
  | cons op rest ih =>
    intro g g' hInv h
    rw [execOps] at h
    cases hop : applyOp g op with
    | none => rw [hop] at h; cases h
    | some g1 =>
      rw [hop] at h
      exact ih g1 g' (Inv_applyOp g op g1 hInv hop) h

theorem Inv_initial : Inv GomokuGame.new.board := Inv_new 45 48 42 2

/-! ### Further shared lemmas -/

theorem is_empty_at_of (b : Board) (j : ℕ)
    (h1 : j < b.cells_per_row * b.cells_per_row)
    (h2 : b.cells.getD j CellState.Empty = CellState.Empty) :
    b.is_empty_at j = true :=
  (is_empty_at_iff b j).2 ⟨h1, h2⟩

theorem is_empty_at_eq_false_of (b : Board) (i : ℕ)
    (h : b.cells.getD i CellState.Empty ≠ CellState.Empty) :
    b.is_empty_at i = false := by
  simp only [List.getD_eq_getElem?_getD] at h
  simp [Board.is_empty_at, h]

theorem valid_pos_iff (b : Board) (c r : ℕ) :
    b.valid_pos c r = true ↔ c ≤ b.cells_per_row ∧ r ≤ b.cells_per_row := by
  simp [Board.valid_pos]

theorem default_padding : Board.default.padding = 45 := rfl

theorem default_cell_size : Board.default.cell_size = 48 := rfl

theorem default_cells_per_row : Board.default.cells_per_row = 15 := rfl

/-- The hit-test acceptance `2 * dis <= cell_size * dis_scale`, with
`dis` the Euclidean distance, is the square root of the squared comparison
used in the embedding, for a nonnegative threshold. -/
theorem two_mul_sqrt_le_iff (dx dy cs : ℚ) (hcs : 0 ≤ cs) :
    (2 * Real.sqrt ((dx : ℝ) ^ 2 + (dy : ℝ) ^ 2) ≤ (cs : ℝ)) ↔
      4 * (dx ^ 2 + dy ^ 2) ≤ cs ^ 2 := by
  have h2 : Real.sqrt (4 * ((dx : ℝ) ^ 2 + (dy : ℝ) ^ 2))
      = 2 * Real.sqrt ((dx : ℝ) ^ 2 + (dy : ℝ) ^ 2) := by
    rw [show (4 : ℝ) = 2 ^ 2 by norm_num, Real.sqrt_mul (by positivity) _,
      Real.sqrt_sq (by norm_num : (0 : ℝ) ≤ 2)]
  rw [← h2, Real.sqrt_le_iff]
  constructor
  · intro h
    exact_mod_cast h.2
  · intro h
    exact ⟨by exact_mod_cast hcs, by exact_mod_cast h⟩

/-! ### The claims -/

/-- C2, counterexample: `Board::clear` resets only the `Board`; the turn state
lives in `GomokuGame` and is not touched by `clear`. After one move from the
initial state (a black chess at index 16, leaving the game awaiting White),
clearing the board leaves the turn state at `WaitWhite`, not `WaitBlack`. -/
theorem clear_turn_state_counterexample :
    (GomokuGame.new.update (Message.ClickBoard 16)).map
      (fun g => ({ g with board := g.board.clear } : GomokuGame).state) =
      some GameState.WaitWhite ∧
    GameState.WaitWhite ≠ GameState.WaitBlack := by
  exact ⟨by decide, by decide⟩

/-- C2 (amended): `clear()` resets the `Board` to a fresh empty board with the
same geometry parameters — every valid index is empty and the move history is
empty — but it does not touch the turn state, which stays whatever it was. -/
theorem clear_resets_board (g : GomokuGame) :
    (∀ i, i < 225 → g.board.clear.is_empty_at i = true) ∧
    g.board.clear.chesses = [] ∧
    g.board.clear.padding = g.board.padding ∧
    g.board.clear.cell_size = g.board.cell_size ∧
    g.board.clear.chess_size = g.board.chess_size ∧
    g.board.clear.line_width = g.board.line_width ∧
    ({ g with board := g.board.clear } : GomokuGame).state = g.state := by
  refine ⟨?_, rfl, rfl, rfl, rfl, rfl, rfl⟩
  intro i hi
  apply is_empty_at_of
  · show i < 15 * 15
    omega
  · show (List.replicate (15 * 15) CellState.Empty).getD i CellState.Empty =
      CellState.Empty
    exact getD_replicate _ _ _ _ (by omega)

theorem clear_resets_board_witness :
    GomokuGame.new.board.clear.is_empty_at 5 = true :=
  (clear_resets_board GomokuGame.new).1 5 (by omega)

/-- C4: after every valid operation sequence from the initial state (clicks
through `update`, undo on a non-empty history, board reset), the number of
non-`Empty` cells equals the length of the move history (invariant I2). -/
theorem history_occupancy_consistency (ops : List Op) (g : GomokuGame)
    (h : execOps GomokuGame.new ops = some g) :
    countNonEmpty g.board.cells = g.board.chesses.length :=
  (Inv_execOps ops GomokuGame.new g Inv_initial h).2.2.2

theorem history_occupancy_consistency_witness :
    countNonEmpty GomokuGame.new.board.cells = GomokuGame.new.board.chesses.length :=
  history_occupancy_consistency [] GomokuGame.new rfl

/-- C7: a click at an occupied index (the cell holds a non-`Empty` state) is a
complete no-op of `update`: the game — board, history and turn state — is
returned unchanged, and no panic occurs. -/
theorem occupied_click_noop (g : GomokuGame) (i : ℕ)
    (hocc : g.board.cells.getD i CellState.Empty ≠ CellState.Empty) :
    g.update (Message.ClickBoard i) = some g := by
  apply update_click_of_not_empty
  simp only [List.getD_eq_getElem?_getD] at hocc
  simp [Board.is_empty_at, hocc]

theorem occupied_click_noop_witness :
    sampleGame.update (Message.ClickBoard 16) = some sampleGame :=
  occupied_click_noop sampleGame 16 (by decide)

/-- C9: `update` never reaches the out-of-range panic of `put_chess`:
`is_empty_at` implies `valid_index`, every click produces `some` successor
state (never the `none` that models the panic), and an out-of-range index is
silently ignored with no state change. -/
theorem update_total (g : GomokuGame) (i : ℕ) :
    (g.board.is_empty_at i = true → g.board.valid_index i = true) ∧
    (∃ g', g.update (Message.ClickBoard i) = some g') ∧
    (g.board.valid_index i = false → g.update (Message.ClickBoard i) = some g) := by
  refine ⟨?_, ?_, ?_⟩
  · intro he
    exact (valid_index_iff g.board i).2 ((is_empty_at_iff g.board i).1 he).1
  · cases he : g.board.is_empty_at i with
    | false => exact ⟨g, update_click_of_not_empty g i he⟩
    | true =>
      cases hs : g.state with
      | WaitBlack => exact ⟨_, update_click_black g i hs he⟩
      | WaitWhite => exact ⟨_, update_click_white g i hs he⟩
      | CheckBlack => exact ⟨g, update_click_check_black g i hs⟩
      | CheckWhite => exact ⟨g, update_click_check_white g i hs⟩
  · intro hv
    apply update_click_of_not_empty
    simp [Board.is_empty_at, hv]

theorem update_total_witness :
    GomokuGame.new.update (Message.ClickBoard 300) = some GomokuGame.new :=
  (update_total GomokuGame.new 300).2.2 (by decide)

/-- C3: the initial turn state is `WaitBlack`; every `update` step started in a
Wait state lands in a Wait state (the `Check` states are collapsed within the
same `update` and never observable); and from the initial state three clicks at
pairwise-distinct valid empty cells place Black, then White, then Black again,
with the awaited color alternating. -/
theorem turn_alternation :
    GomokuGame.new.state = GameState.WaitBlack ∧
    (∀ (g : GomokuGame) (i : ℕ),
      (g.state = GameState.WaitBlack ∨ g.state = GameState.WaitWhite) →
      ∃ g', g.update (Message.ClickBoard i) = some g' ∧
        (g'.state = GameState.WaitBlack ∨ g'.state = GameState.WaitWhite)) ∧
    (∀ i j k : ℕ, i < 225 → j < 225 → k < 225 → i ≠ j → k ≠ i → k ≠ j →
      ∃ g1 g2 g3,
        GomokuGame.new.update (Message.ClickBoard i) = some g1 ∧
        g1.state = GameState.WaitWhite ∧
        g1.board.cells.getD i CellState.Empty = CellState.Black ∧
        g1.update (Message.ClickBoard j) = some g2 ∧
        g2.state = GameState.WaitBlack ∧
        g2.board.cells.getD j CellState.Empty = CellState.White ∧
        g2.update (Message.ClickBoard k) = some g3 ∧
        g3.state = GameState.WaitWhite ∧
        g3.board.cells.getD k CellState.Empty = CellState.Black) := by
  refine ⟨rfl, ?_, ?_⟩
  · intro g i hs
    cases he : g.board.is_empty_at i with
    | false => exact ⟨g, update_click_of_not_empty g i he, hs⟩
    | true =>
      rcases hs with hs | hs
      · exact ⟨_, update_click_black g i hs he, Or.inr rfl⟩
      · exact ⟨_, update_click_white g i hs he, Or.inl rfl⟩
  · intro i j k hi hj hk hij hki hkj
    have he1 : GomokuGame.new.board.is_empty_at i = true := by
      apply is_empty_at_of
      · show i < 15 * 15
        omega
      · show (List.replicate (15 * 15) CellState.Empty).getD i CellState.Empty =
          CellState.Empty
        exact getD_replicate _ _ _ _ (by omega)
    refine ⟨_, _, _, update_click_black GomokuGame.new i rfl he1, rfl, ?_,
      update_click_white _ j rfl ?_, rfl, ?_,
      update_click_black _ k rfl ?_, rfl, ?_⟩
    · show ((List.replicate (15 * 15) CellState.Empty).set i CellState.Black).getD i
        CellState.Empty = CellState.Black
      exact getD_set_self _ _ _ _ (by rw [List.length_replicate]; omega)
    · apply is_empty_at_of
      · show j < 15 * 15
        omega
      · show ((List.replicate (15 * 15) CellState.Empty).set i CellState.Black).getD j
          CellState.Empty = CellState.Empty
        rw [getD_set_ne _ _ _ _ _ hij]
        exact getD_replicate _ _ _ _ (by omega)
    · show (((List.replicate (15 * 15) CellState.Empty).set i CellState.Black).set j
        CellState.White).getD j CellState.Empty = CellState.White
      exact getD_set_self _ _ _ _ (by rw [List.length_set, List.length_replicate]; omega)
    · apply is_empty_at_of
      · show k < 15 * 15
        omega
      · show (((List.replicate (15 * 15) CellState.Empty).set i CellState.Black).set j
          CellState.White).getD k CellState.Empty = CellState.Empty
        rw [getD_set_ne _ _ _ _ _ (Ne.symm hkj), getD_set_ne _ _ _ _ _ (Ne.symm hki)]
        exact getD_replicate _ _ _ _ (by omega)
    · show ((((List.replicate (15 * 15) CellState.Empty).set i CellState.Black).set j
        CellState.White).set k CellState.Black).getD k CellState.Empty = CellState.Black
      exact getD_set_self _ _ _ _
        (by rw [List.length_set, List.length_set, List.length_replicate]; omega)

theorem turn_alternation_witness :
    ∃ g1 g2 g3,
      GomokuGame.new.update (Message.ClickBoard 16) = some g1 ∧
      g1.state = GameState.WaitWhite ∧
      g1.board.cells.getD 16 CellState.Empty = CellState.Black ∧
      g1.update (Message.ClickBoard 20) = some g2 ∧
      g2.state = GameState.WaitBlack ∧
      g2.board.cells.getD 20 CellState.Empty = CellState.White ∧
      g2.update (Message.ClickBoard 0) = some g3 ∧
      g3.state = GameState.WaitWhite ∧
      g3.board.cells.getD 0 CellState.Empty = CellState.Black :=
  turn_alternation.2.2 16 20 0 (by omega) (by omega) (by omega)
    (by omega) (by omega) (by omega)

/-- C5: with a valid index, `put_chess` appends exactly one `Move` carrying the
grid position of the index and the given color, writes that color into
`cells[index]` (leaving all other cells untouched), and succeeds; with an
out-of-range index it panics (`none`). No occupancy precondition appears: the
success branch applies to occupied cells as well, overwriting the cell and
appending a second move at the same position. -/
theorem put_chess_contract (b : Board) (i : ℕ) (c : Bool)
    (hlen : b.cells.length = b.cells_per_row * b.cells_per_row) :
    (b.valid_index i = true →
      ∃ b', b.put_chess i c = some b' ∧
        b'.chesses = b.chesses ++
          [{ pos := b.index_to_pos i
             color := if c then ChessColor.Black else ChessColor.White }] ∧
        b'.cells.getD i CellState.Empty =
          (if c then CellState.Black else CellState.White) ∧
        (∀ j, j ≠ i → b'.cells.getD j CellState.Empty = b.cells.getD j CellState.Empty) ∧
        b'.cells.length = b.cells.length) ∧
    (b.valid_index i = false → b.put_chess i c = none) := by
  constructor
  · intro hv
    have hv' := (valid_index_iff b i).1 hv
    have hilen : i < b.cells.length := by omega
    refine ⟨_, put_chess_of_valid b i c hv', rfl, ?_, ?_, ?_⟩
    · show (b.cells.set i (if c then CellState.Black else CellState.White)).getD i
        CellState.Empty = (if c then CellState.Black else CellState.White)
      exact getD_set_self _ _ _ _ hilen
    · intro j hj
      show (b.cells.set i (if c then CellState.Black else CellState.White)).getD j
        CellState.Empty = b.cells.getD j CellState.Empty
      exact getD_set_ne _ _ _ _ _ (fun h => hj h.symm)
    · show (b.cells.set i (if c then CellState.Black else CellState.White)).length =
        b.cells.length
      rw [List.length_set]
  · intro hv
    apply put_chess_of_invalid
    simpa [Board.valid_index] using hv

theorem put_chess_contract_witness :
    ∃ b', sampleGame.board.put_chess 16 false = some b' ∧
      b'.chesses = sampleGame.board.chesses ++
        [{ pos := sampleGame.board.index_to_pos 16
           color := if false then ChessColor.Black else ChessColor.White }] ∧
      b'.cells.getD 16 CellState.Empty =
        (if false then CellState.Black else CellState.White) ∧
      (∀ j, j ≠ 16 →
        b'.cells.getD j CellState.Empty = sampleGame.board.cells.getD j CellState.Empty) ∧
      b'.cells.length = sampleGame.board.cells.length :=
  (put_chess_contract sampleGame.board 16 false (by decide)).1 (by decide)

/-- C6: on a non-empty history, `remove_last_chess` pops exactly the most
recent move and clears that move's cell back to `Empty`, leaving every other
cell and the earlier history entries unchanged; it panics (`none`) exactly when
the history is empty (the Rust `panic!` fires before any mutation, so the
failure has no effect). The `hpos` hypothesis records that every stored move
maps into the cell vector, which holds for every board the program builds. -/
theorem remove_last_chess_contract (b : Board)
    (hpos : ∀ m ∈ b.chesses, b.pos_to_index m.pos < b.cells.length) :
    (∀ init last, b.chesses = init ++ [last] →
      ∃ b', b.remove_last_chess = some b' ∧
        b'.chesses = init ∧
        b'.cells.getD (b.pos_to_index last.pos) CellState.Empty = CellState.Empty ∧
        (∀ j, j ≠ b.pos_to_index last.pos →
          b'.cells.getD j CellState.Empty = b.cells.getD j CellState.Empty)) ∧
    (b.remove_last_chess = none ↔ b.chesses = []) := by
  constructor
  · intro init last h
    refine ⟨_, remove_last_chess_concat b init last h, rfl, ?_, ?_⟩
    · show (b.cells.set (b.pos_to_index last.pos) CellState.Empty).getD
        (b.pos_to_index last.pos) CellState.Empty = CellState.Empty
      exact getD_set_self _ _ _ _
        (hpos last (by rw [h]; exact List.mem_append_right _ (List.mem_singleton.2 rfl)))
    · intro j hj
      show (b.cells.set (b.pos_to_index last.pos) CellState.Empty).getD j
        CellState.Empty = b.cells.getD j CellState.Empty
      exact getD_set_ne _ _ _ _ _ (fun hEq => hj hEq.symm)
  · constructor
    · intro hnone
      rcases List.eq_nil_or_concat b.chesses with hnil | ⟨init, last, hcat⟩
      · exact hnil
      · rw [List.concat_eq_append] at hcat
        rw [remove_last_chess_concat b init last hcat] at hnone
        cases hnone
    · exact remove_last_chess_nil b

theorem remove_last_chess_contract_witness :
    ∃ b', sampleGame.board.remove_last_chess = some b' ∧
      b'.chesses = [] ∧
      b'.cells.getD (sampleGame.board.pos_to_index (1, 1)) CellState.Empty =
        CellState.Empty ∧
      (∀ j, j ≠ sampleGame.board.pos_to_index (1, 1) →
        b'.cells.getD j CellState.Empty =
          sampleGame.board.cells.getD j CellState.Empty) :=
  (remove_last_chess_contract sampleGame.board (by decide)).1
    [] { pos := (1, 1), color := ChessColor.Black } (by decide)

/-- C8: starting from any board (with its constructed cell-vector length) and
any empty index `i`, `put_chess i Black` makes the cell report `Black` and
`is_empty_at i` report `false`; an immediately following `remove_last_chess`
pops that move and makes `is_empty_at i` report `true` again. -/
theorem occupancy_round_trip (b : Board) (i : ℕ)
    (hlen : b.cells.length = b.cells_per_row * b.cells_per_row)
    (he : b.is_empty_at i = true) :
    ∃ b1 b2, b.put_chess i true = some b1 ∧
      b1.is_empty_at i = false ∧
      b1.cells.getD i CellState.Empty = CellState.Black ∧
      b1.remove_last_chess = some b2 ∧
      b2.is_empty_at i = true := by
  obtain ⟨hv, hemp⟩ := (is_empty_at_iff b i).1 he
  have hilen : i < b.cells.length := by omega
  have hip : b.pos_to_index (b.index_to_pos i) = i := pos_to_index_index_to_pos b i
  refine ⟨_, _, put_chess_of_valid b i true hv, ?_, ?_,
    remove_last_chess_concat _ b.chesses
      { pos := b.index_to_pos i, color := ChessColor.Black } rfl, ?_⟩
  · apply is_empty_at_eq_false_of
    show (b.cells.set i CellState.Black).getD i CellState.Empty ≠ CellState.Empty
    rw [getD_set_self _ _ _ _ hilen]
    simp
  · show (b.cells.set i CellState.Black).getD i CellState.Empty = CellState.Black
    exact getD_set_self _ _ _ _ hilen
  · apply is_empty_at_of
    · exact hv
    · show ((b.cells.set i CellState.Black).set
        (b.pos_to_index (b.index_to_pos i)) CellState.Empty).getD i CellState.Empty =
        CellState.Empty
      rw [hip, List.set_set]
      exact getD_set_self _ _ _ _ hilen

theorem occupancy_round_trip_witness :
    ∃ b1 b2, Board.default.put_chess 0 true = some b1 ∧
      b1.is_empty_at 0 = false ∧
      b1.cells.getD 0 CellState.Empty = CellState.Black ∧
      b1.remove_last_chess = some b2 ∧
      b2.is_empty_at 0 = true :=
  occupancy_round_trip Board.default 0 (by decide) (by decide)

/-- C10: because `valid_pos` compares with `<=` instead of `<`, a click just
past the right edge of the grid resolves to `(15, row)`, which the guard
accepts; `pos_to_index (15, row) = 15 + row * 15`, the index of cell
`(0, row + 1)`. Concretely, pixel (765, 93) yields `some (15, 1)`, whose index
30 is the valid board index of cell `(0, 2)` — the leftmost intersection of
the following row — instead of being rejected. -/
theorem valid_pos_off_by_one :
    Board.default.grid_pos 765 93 (3 / 5) = some (15, 1) ∧
    Board.default.valid_pos 15 1 = true ∧
    (∀ row : ℕ, Board.default.pos_to_index (15, row) = 15 + row * 15 ∧
      Board.default.pos_to_index (0, row + 1) = 15 + row * 15) ∧
    Board.default.pos_to_index (15, 1) = 30 ∧
    Board.default.valid_index 30 = true ∧
    Board.default.index_to_pos 30 = (0, 2) := by
  refine ⟨?_, by decide, ?_, by decide, by decide, by decide⟩
  · norm_num [Board.grid_pos, Board.default, Board.new, Board.roundQ, Board.valid_pos]
    decide
  · intro row
    constructor
    · show 15 + row * 15 = 15 + row * 15
      rfl
    · show 0 + (row + 1) * 15 = 15 + row * 15
      ring

/-- C1: `grid_pos` subtracts `padding`, divides by `cell_size`, rounds to the
nearest integer (ties away from zero, as `f32::round`) to get candidate
`(col, row)`; returns `none` when `col <= 0` or `row <= 0` or the bounds check
`col <= cells_per_row && row <= cells_per_row` fails (one-past-the-end values
pass); otherwise returns `some (col, row)` iff twice the Euclidean distance
from the offset point to `(col * cell_size, row * cell_size)` is at most
`cell_size * tolerance_scale`. With defaults: `grid_pos 93 93 0.6 = some (1,1)`,
`grid_pos 123 93 0.6 = none`, `grid_pos 45 45 0.6 = none`. -/
theorem grid_pos_contract :
    (∀ (b : Board) (x y s : ℚ) (p : ℕ × ℕ), 0 ≤ b.cell_size * s →
      (b.grid_pos x y s = some p ↔
        (let col := Board.roundQ ((x - b.padding) / b.cell_size)
         let row := Board.roundQ ((y - b.padding) / b.cell_size)
         0 < col ∧ 0 < row ∧
         col.toNat ≤ b.cells_per_row ∧ row.toNat ≤ b.cells_per_row ∧
         2 * Real.sqrt
             ((((x - b.padding : ℚ) : ℝ) - (col : ℝ) * (b.cell_size : ℝ)) ^ 2 +
              (((y - b.padding : ℚ) : ℝ) - (row : ℝ) * (b.cell_size : ℝ)) ^ 2) ≤
           (b.cell_size : ℝ) * (s : ℝ) ∧
         p = (col.toNat, row.toNat)))) ∧
    Board.default.grid_pos 93 93 (3 / 5) = some (1, 1) ∧
    Board.default.grid_pos 123 93 (3 / 5) = none ∧
    Board.default.grid_pos 45 45 (3 / 5) = none := by
  refine ⟨?_, ?_, ?_, ?_⟩
  · intro b x y s p hcs
    have hdx : (((x - b.padding) - (Board.roundQ ((x - b.padding) / b.cell_size) : ℚ) *
        b.cell_size : ℚ) : ℝ) =
        ((x - b.padding : ℚ) : ℝ) -
          ((Board.roundQ ((x - b.padding) / b.cell_size) : ℤ) : ℝ) * (b.cell_size : ℝ) := by
      push_cast
      ring
    have hdy : (((y - b.padding) - (Board.roundQ ((y - b.padding) / b.cell_size) : ℚ) *
        b.cell_size : ℚ) : ℝ) =
        ((y - b.padding : ℚ) : ℝ) -
          ((Board.roundQ ((y - b.padding) / b.cell_size) : ℤ) : ℝ) * (b.cell_size : ℝ) := by
      push_cast
      ring
    have hcs' : ((b.cell_size * s : ℚ) : ℝ) = (b.cell_size : ℝ) * (s : ℝ) := by
      push_cast
      ring
    have hiff := two_mul_sqrt_le_iff
      ((x - b.padding) - (Board.roundQ ((x - b.padding) / b.cell_size) : ℚ) * b.cell_size)
      ((y - b.padding) - (Board.roundQ ((y - b.padding) / b.cell_size) : ℚ) * b.cell_size)
      (b.cell_size * s) hcs
    rw [hdx, hdy, hcs'] at hiff
    simp only [Board.grid_pos]
    split_ifs with hguard hdist
    · constructor
      · intro h
        simp at h
      · rintro ⟨-, -, -, -, h5, -⟩
        exfalso
        have h5' := hiff.1 h5
        linarith [hdist]
    · obtain ⟨hc, hr, hvp⟩ := hguard
      obtain ⟨h3, h4⟩ := (valid_pos_iff b _ _).1 hvp
      have h5 := hiff.2 (not_lt.1 hdist)
      constructor
      · intro h
        exact ⟨hc, hr, h3, h4, h5, (Option.some.inj h).symm⟩
      · rintro ⟨-, -, -, -, -, h6⟩
        rw [h6]
    · constructor
      · intro h
        simp at h
      · rintro ⟨h1, h2, h3, h4, -, -⟩
        exact absurd ⟨h1, h2, (valid_pos_iff b _ _).2 ⟨h3, h4⟩⟩ hguard
  · norm_num [Board.grid_pos, Board.default, Board.new, Board.roundQ, Board.valid_pos,
      Int.toNat_ofNat]
  · norm_num [Board.grid_pos, Board.default, Board.new, Board.roundQ, Board.valid_pos]
  · norm_num [Board.grid_pos, Board.default, Board.new, Board.roundQ, Board.valid_pos]

theorem grid_pos_contract_witness :
    Board.default.grid_pos 93 93 (3 / 5) = some (1, 1) ↔
      (let col := Board.roundQ ((93 - Board.default.padding) / Board.default.cell_size)
       let row := Board.roundQ ((93 - Board.default.padding) / Board.default.cell_size)
       0 < col ∧ 0 < row ∧
       col.toNat ≤ Board.default.cells_per_row ∧
       row.toNat ≤ Board.default.cells_per_row ∧
       2 * Real.sqrt
           ((((93 - Board.default.padding : ℚ) : ℝ) -
              (col : ℝ) * (Board.default.cell_size : ℝ)) ^ 2 +
            (((93 - Board.default.padding : ℚ) : ℝ) -
              (row : ℝ) * (Board.default.cell_size : ℝ)) ^ 2) ≤
         (Board.default.cell_size : ℝ) * ((3 / 5 : ℚ) : ℝ) ∧
       (1, 1) = (col.toNat, row.toNat)) :=
  grid_pos_contract.1 Board.default 93 93 (3 / 5) (1, 1)
    (by rw [default_cell_size]; norm_num)

end Gomoku
